import Mathlib

/-!
Verification of the loki branch tool: the prune-line parser, the pruning
policy in `prune` (src/main.rs), the detached-HEAD guard in `push_branch`,
and the commit-message construction in `save`.

Strings are handled through their underlying character lists; external
collaborators (git queries, the fetch/pull output, per-branch deletion
outcomes) are passed in as explicit parameters, and all observable side
effects (stdout, stderr, external command invocations) are recorded in an
event trace.
-/

namespace Loki

/-- Whitespace recognizer used when trimming lines and branch names. -/
def isWs (c : Char) : Bool :=
  c = ' ' || c = '\t' || c = '\n' || c = '\r'

/-- Remove leading and trailing whitespace characters from a character list. -/
def trimChars (s : List Char) : List Char :=
  ((s.dropWhile isWs).reverse.dropWhile isWs).reverse

/-- The suffix of the input that follows the first occurrence of `pat`,
or `none` when `pat` does not occur. -/
def dropAfterFirst (pat : List Char) : List Char → Option (List Char)
  | [] => if pat.isEmpty then some [] else none
  | c :: cs =>
    if pat.isPrefixOf (c :: cs) then some ((c :: cs).drop pat.length)
    else dropAfterFirst pat cs

/-- The suffix of the input that follows the last occurrence of `pat`,
or `none` when `pat` does not occur. -/
def afterLast (pat : List Char) : List Char → Option (List Char)
  | [] => none
  | c :: cs =>
    match afterLast pat cs with
    | some r => some r
    | none =>
      if pat.isPrefixOf (c :: cs) then some ((c :: cs).drop pat.length) else none

/-- First marker of a pruning notice. -/
def markerDeleted : List Char := "- [deleted]".data

/-- Second marker of a pruning notice. -/
def markerNone : List Char := "(none)".data

/-- Third marker of a pruning notice; the branch name follows its last
occurrence. -/
def markerArrow : List Char := "->".data

/-- The trimmed character list of a command output line. -/
def trimmedLine (line : String) : List Char := trimChars line.data

/-- Modelled from the spec: the body of `is_pruned_branch` lives in the
`pruning` module declared by src/main.rs, and that module's source is not
under src/.  Per the spec (§4.1): after trimming the line, the line is a
pruning notice iff it contains the marker `- [deleted]`, followed eventually
by `(none)`, followed by `->`; the branch name is the remaining trailing text
after the last `->`, itself trimmed of whitespace, and must be non-empty;
otherwise the parser yields nothing. -/
def is_pruned_branch (line : String) : Option String :=
  match dropAfterFirst markerDeleted (trimmedLine line) with
  | none => none
  | some r1 =>
    match dropAfterFirst markerNone r1 with
    | none => none
    | some r2 =>
      match afterLast markerArrow r2 with
      | none => none
      | some tail =>
        if trimChars tail = [] then none else some (String.mk (trimChars tail))

/-- Observable side effects of one subcommand run: snapshot queries to the
git collaborator, lines printed to stdout/stderr, and external command
invocations (with or without captured output). -/
inductive Event where
  | queryCurrentBranch
  | queryBranches
  | runCapturing (description : String) (args : List String)
  | run (description : String) (args : List String)
  | stdout (s : String)
  | stderr (s : String)
  deriving DecidableEq

/-- Warning printed when the pruned branch is the checked-out branch
(src/main.rs line 145). -/
def headWarning (b : String) : String :=
  "⚠️ Cannot delete pruned branch " ++ b ++ " because HEAD is pointing to it."

/-- Error-stream report for a failed per-branch deletion
(src/main.rs line 153). -/
def deleteFailure (b err : String) : String :=
  "Failed to delete pruned branch " ++ b ++ ": " ++ err

/-- Description string of the deletion command (src/main.rs line 150). -/
def deleteDescription (b : String) : String := "delete branch " ++ b

/-- Argument list of the force-deletion command (src/main.rs line 151). -/
def deleteArgs (b : String) : List String := ["branch", "-D", b]

/-- Side effects after the echo for one output line of the fetch/pull, given
the current-branch snapshot `cb`, the local-branch snapshot `branches`, and
the outcome `delRes` of the external deletion command (`none` means success,
`some err` the collaborator's error).  Mirrors the body of the `for` loop in
`prune` (src/main.rs lines 143-156). -/
def pruneLineTail (cb : String) (branches : List String)
    (delRes : String → Option String) (line : String) : List Event :=
  match is_pruned_branch line with
  | none => []
  | some b =>
    if b = cb then [Event.stderr (headWarning b)]
    else if branches.contains b then
      Event.run (deleteDescription b) (deleteArgs b) ::
        (match delRes b with
         | none => []
         | some err => [Event.stderr (deleteFailure b err)])
    else []

/-- All side effects for one output line: the unconditional echo
(src/main.rs line 142) followed by the pruning-policy effects. -/
def pruneLineEvents (cb : String) (branches : List String)
    (delRes : String → Option String) (line : String) : List Event :=
  Event.stdout line :: pruneLineTail cb branches delRes line

/-- Effects preceding line processing in `prune`: the two snapshot queries
and the fetch/pull invocation (src/main.rs lines 138-141). -/
def pruneHeader (cmd : String) : List Event :=
  [Event.queryCurrentBranch, Event.queryBranches,
   Event.runCapturing "pull with pruning" [cmd, "--prune"]]

/-- Full event trace of a successful prune run over the captured `lines`. -/
def pruneTrace (cmd cb : String) (branches : List String)
    (delRes : String → Option String) (lines : List String) : List Event :=
  pruneHeader cmd ++ (lines.map (pruneLineEvents cb branches delRes)).flatten

/-- The `prune` function of src/main.rs (lines 137-160): the three fallible
collaborator calls are threaded in as `Except` values and propagate with the
same early returns as the source's question-mark operator; on success the
whole event trace is produced and the result is `ok`. -/
def prune (cmd : String) (cbRes : Except String String)
    (brRes : Except String (List String))
    (linesRes : Except String (List String))
    (delRes : String → Option String) : Except String (List Event) :=
  match cbRes with
  | .error e => .error e
  | .ok cb =>
    match brRes with
    | .error e => .error e
    | .ok branches =>
      match linesRes with
      | .error e => .error e
      | .ok lines => .ok (pruneTrace cmd cb branches delRes lines)

/-- ASCII lowercasing, as Rust's `to_ascii_lowercase`. -/
def asciiLower (c : Char) : Char :=
  if 'A' ≤ c ∧ c ≤ 'Z' then Char.ofNat (c.toNat + 32) else c

/-- ASCII lowercasing of a string. -/
def toAsciiLowercase (s : String) : String := String.mk (s.data.map asciiLower)

/-- Error returned by `push_branch` on a detached checkout
(src/main.rs lines 111-113). -/
def detachedError : String := "HEAD is currently detached, no branch to push!"

/-- Argument list built by `push_branch` (src/main.rs lines 116-122). -/
def pushArgs (force : Bool) (cb : String) : List String :=
  ["push", "--set-upstream"] ++ (if force then ["--force-with-lease"] else [])
    ++ ["origin", cb]

/-- The `push_branch` function of src/main.rs (lines 107-127): queries the
current branch, rejects an (ASCII-case-insensitive) "head" as detached, and
otherwise invokes exactly one push command. -/
def push_branch (force : Bool) (cbRes : Except String String) :
    Except String (List Event) :=
  match cbRes with
  | .error e => .error e
  | .ok cb =>
    if toAsciiLowercase cb = "head" then .error detachedError
    else .ok [Event.run "push" (pushArgs force cb)]

/-- Commit message built by `save` (src/main.rs line 72), with `now` the
formatted local time. -/
def saveCommitMessage (now : String) (message : List String) : String :=
  "lk save [" ++ now ++ "] | " ++ String.intercalate " " message

/-- The `save` function of src/main.rs (lines 58-79): obtaining the local
time is threaded in as an `Option` (`none` models the failure of
`OffsetDateTime::now_local`); on success it yields the described command
sequence handed to `git_commands_status`. -/
def save (timeRes : Option String) (all : Bool) (message : List String) :
    Except String (List (String × List String)) :=
  match timeRes with
  | none => .error "could not get current time"
  | some now =>
    .ok [("add files", ["add", if all then "--all" else "--update"]),
         ("commit", ["commit", "--message", saveCommitMessage now message]),
         ("push", ["push"])]

/-- The lines a trace prints to standard output, in order. -/
def stdoutLines (tr : List Event) : List String :=
  tr.filterMap fun e =>
    match e with
    | Event.stdout s => some s
    | _ => none

/-- Recognizes an invocation of the force-deletion command for branch `b`. -/
def isDelete (b : String) (e : Event) : Bool :=
  match e with
  | Event.run _ args => decide (args = deleteArgs b)
  | _ => false

/-- Number of force-deletion invocations for branch `b` in a trace. -/
def countDeletes (b : String) (tr : List Event) : Nat := tr.countP (isDelete b)

/-- Number of current-branch snapshot queries in a trace. -/
def countQueryCurrent (tr : List Event) : Nat :=
  tr.countP fun e => decide (e = Event.queryCurrentBranch)

/-- Number of local-branch-set snapshot queries in a trace. -/
def countQueryBranches (tr : List Event) : Nat :=
  tr.countP fun e => decide (e = Event.queryBranches)

/-! ### Lemmas about the substring-search combinators -/

theorem dropAfterFirst_some_decomp {pat : List Char} :
    ∀ {s r : List Char}, dropAfterFirst pat s = some r →
      ∃ a, s = a ++ (pat ++ r) := by
  intro s
  induction s with
  | nil =>
    intro r h
    rw [dropAfterFirst] at h
    split at h
    · rename_i hp
      rw [List.isEmpty_iff] at hp
      cases h
      exact ⟨[], by simp [hp]⟩
    · cases h
  | cons c cs ih =>
    intro r h
    rw [dropAfterFirst] at h
    split at h
    · rename_i hp
      rw [List.isPrefixOf_iff_prefix] at hp
      obtain ⟨t, ht⟩ := hp
      cases h
      refine ⟨[], ?_⟩
      simp only [List.nil_append]
      rw [← ht, List.drop_left]
    · obtain ⟨a, ha⟩ := ih h
      exact ⟨c :: a, by simp [ha]⟩

theorem dropAfterFirst_of_isPrefixOf {pat s : List Char} (h : pat.isPrefixOf s) :
    dropAfterFirst pat s = some (s.drop pat.length) := by
  cases s with
  | nil =>
    rw [dropAfterFirst]
    cases pat with
    | nil => rfl
    | cons p ps => simp [List.isPrefixOf] at h
  | cons c cs =>
    rw [dropAfterFirst, if_pos h]

theorem dropAfterFirst_append {pat : List Char} :
    ∀ (a b : List Char), ∃ r,
      dropAfterFirst pat (a ++ (pat ++ b)) = some r ∧ b <:+ r := by
  intro a
  induction a with
  | nil =>
    intro b
    refine ⟨b, ?_, List.suffix_rfl⟩
    have h1 : pat.isPrefixOf (pat ++ b) :=
      List.isPrefixOf_iff_prefix.mpr (List.prefix_append pat b)
    have h2 := dropAfterFirst_of_isPrefixOf h1
    rw [List.drop_left] at h2
    simpa using h2
  | cons c cs ih =>
    intro b
    by_cases hp : pat.isPrefixOf (c :: (cs ++ (pat ++ b)))
    · refine ⟨((c :: cs) ++ (pat ++ b)).drop pat.length,
        dropAfterFirst_of_isPrefixOf hp, ?_⟩
      have hb : (((c :: cs) ++ (pat ++ b)).drop pat.length).drop (c :: cs).length
          = b := by
        rw [List.drop_drop]
        have hc : pat.length + (c :: cs).length = (c :: cs).length + pat.length :=
          Nat.add_comm _ _
        rw [hc, ← List.drop_drop, List.drop_left, List.drop_left]
      have hs := List.drop_suffix (c :: cs).length
        (((c :: cs) ++ (pat ++ b)).drop pat.length)
      rwa [hb] at hs
    · obtain ⟨r, hr, hsuf⟩ := ih b
      refine ⟨r, ?_, hsuf⟩
      rw [List.cons_append, dropAfterFirst, if_neg hp]
      exact hr

theorem afterLast_cons_some {pat r : List Char} {c : Char} {cs : List Char}
    (h : afterLast pat cs = some r) : afterLast pat (c :: cs) = some r := by
  rw [afterLast, h]

theorem afterLast_suffix_some {pat s t r : List Char} (hsuf : s <:+ t)
    (h : afterLast pat s = some r) : afterLast pat t = some r := by
  obtain ⟨p, rfl⟩ := hsuf
  induction p with
  | nil => simpa using h
  | cons c p ih => exact afterLast_cons_some ih

theorem afterLast_some_decomp {pat : List Char} :
    ∀ {s r : List Char}, afterLast pat s = some r → ∃ a, s = a ++ (pat ++ r) := by
  intro s
  induction s with
  | nil =>
    intro r h
    rw [afterLast] at h
    cases h
  | cons c cs ih =>
    intro r h
    rw [afterLast] at h
    cases hcs : afterLast pat cs with
    | some r2 =>
      simp only [hcs] at h
      cases h
      obtain ⟨a, ha⟩ := ih hcs
      exact ⟨c :: a, by simp [ha]⟩
    | none =>
      simp only [hcs] at h
      split at h
      · rename_i hp
        rw [List.isPrefixOf_iff_prefix] at hp
        obtain ⟨t, ht⟩ := hp
        cases h
        refine ⟨[], ?_⟩
        simp only [List.nil_append]
        rw [← ht, List.drop_left]
      · cases h

theorem afterLast_none_no_occurrence {pat : List Char} (hpat : pat ≠ []) :
    ∀ {s : List Char}, afterLast pat s = none →
      ∀ a b, s ≠ a ++ (pat ++ b) := by
  intro s
  induction s with
  | nil =>
    intro _ a b heq
    cases pat with
    | nil => exact hpat rfl
    | cons p ps => simp at heq
  | cons c cs ih =>
    intro h a b heq
    rw [afterLast] at h
    cases hcs : afterLast pat cs with
    | some r => simp [hcs] at h
    | none =>
      simp only [hcs] at h
      cases a with
      | nil =>
        simp only [List.nil_append] at heq
        have hp : pat.isPrefixOf (c :: cs) :=
          List.isPrefixOf_iff_prefix.mpr ⟨b, heq.symm⟩
        rw [if_pos hp] at h
        cases h
      | cons x a2 =>
        rw [List.cons_append] at heq
        injection heq with h1 h2
        exact ih hcs a2 b h2

theorem afterLast_isSome_of_occurrence {pat s : List Char} (hpat : pat ≠ [])
    (h : ∃ a b, s = a ++ (pat ++ b)) : ∃ r, afterLast pat s = some r := by
  obtain ⟨a, b, rfl⟩ := h
  cases hcs : afterLast pat (a ++ (pat ++ b)) with
  | some r => exact ⟨r, rfl⟩
  | none => exact absurd rfl (afterLast_none_no_occurrence hpat hcs a b)

theorem afterLast_result_no_occurrence {pat : List Char} (hpat : pat ≠ []) :
    ∀ {s r : List Char}, afterLast pat s = some r →
      ∀ x y, r ≠ x ++ (pat ++ y) := by
  intro s
  induction s with
  | nil =>
    intro r h
    rw [afterLast] at h
    cases h
  | cons c cs ih =>
    intro r h x y heq
    rw [afterLast] at h
    cases hcs : afterLast pat cs with
    | some r2 =>
      simp only [hcs] at h
      cases h
      exact ih hcs x y heq
    | none =>
      simp only [hcs] at h
      split at h
      · rename_i hp
        rw [List.isPrefixOf_iff_prefix] at hp
        obtain ⟨t, ht⟩ := hp
        have hr : (c :: cs).drop pat.length = t := by
          rw [← ht, List.drop_left]
        cases h
        rw [hr] at heq
        cases pat with
        | nil => exact hpat rfl
        | cons p ps =>
          rw [List.cons_append] at ht
          injection ht with h1 h2
          refine afterLast_none_no_occurrence hpat hcs (ps ++ x) y ?_
          rw [← h2, heq]
          simp [List.append_assoc]
      · cases h

/-! ### Lemmas about the pruning policy trace -/

theorem pruneLineTail_none {cb : String} {branches : List String}
    {delRes : String → Option String} {line : String}
    (h : is_pruned_branch line = none) :
    pruneLineTail cb branches delRes line = [] := by
  rw [pruneLineTail, h]

theorem pruneLineTail_current {cb : String} {branches : List String}
    {delRes : String → Option String} {line : String}
    (h : is_pruned_branch line = some cb) :
    pruneLineTail cb branches delRes line = [Event.stderr (headWarning cb)] := by
  rw [pruneLineTail, h]
  simp

theorem pruneLineTail_delete {cb b : String} {branches : List String}
    {delRes : String → Option String} {line : String}
    (h1 : is_pruned_branch line = some b) (h2 : b ≠ cb)
    (h3 : branches.contains b = true) :
    pruneLineTail cb branches delRes line =
      Event.run (deleteDescription b) (deleteArgs b) ::
        (match delRes b with
         | none => []
         | some err => [Event.stderr (deleteFailure b err)]) := by
  have hm : b ∈ branches := by simpa using h3
  rw [pruneLineTail, h1]
  simp [h2, hm]

theorem pruneLineTail_skip {cb b : String} {branches : List String}
    {delRes : String → Option String} {line : String}
    (h1 : is_pruned_branch line = some b) (h2 : b ≠ cb)
    (h3 : branches.contains b = false) :
    pruneLineTail cb branches delRes line = [] := by
  have hm : b ∉ branches := by simpa using h3
  rw [pruneLineTail, h1]
  simp [h2, hm]

theorem pruneLineTail_mem {cb : String} {branches : List String}
    {delRes : String → Option String} {line : String} :
    ∀ e ∈ pruneLineTail cb branches delRes line,
      (∃ s, e = Event.stderr s) ∨ ∃ d a, e = Event.run d a := by
  intro e he
  cases hp : is_pruned_branch line with
  | none => rw [pruneLineTail_none hp] at he; cases he
  | some b =>
    by_cases hcb : b = cb
    · rw [hcb] at hp
      rw [pruneLineTail_current hp] at he
      rcases List.mem_singleton.mp he with rfl
      exact Or.inl ⟨_, rfl⟩
    · cases hc : branches.contains b with
      | false => rw [pruneLineTail_skip hp hcb hc] at he; cases he
      | true =>
        rw [pruneLineTail_delete hp hcb hc] at he
        rcases List.mem_cons.mp he with rfl | he2
        · exact Or.inr ⟨_, _, rfl⟩
        · cases hd : delRes b with
          | none => rw [hd] at he2; cases he2
          | some err =>
            rw [hd] at he2
            rcases List.mem_singleton.mp he2 with rfl
            exact Or.inl ⟨_, rfl⟩

theorem pruneLineTail_run_mem {cb d : String} {branches : List String}
    {delRes : String → Option String} {line : String} {a : List String}
    (h : Event.run d a ∈ pruneLineTail cb branches delRes line) :
    ∃ b, is_pruned_branch line = some b ∧ b ≠ cb ∧ branches.contains b = true ∧
      d = deleteDescription b ∧ a = deleteArgs b := by
  cases hp : is_pruned_branch line with
  | none => rw [pruneLineTail_none hp] at h; cases h
  | some b =>
    by_cases hcb : b = cb
    · rw [hcb] at hp
      rw [pruneLineTail_current hp] at h
      exact Event.noConfusion (List.mem_singleton.mp h)
    · cases hc : branches.contains b with
      | false => rw [pruneLineTail_skip hp hcb hc] at h; cases h
      | true =>
        rw [pruneLineTail_delete hp hcb hc] at h
        rcases List.mem_cons.mp h with heq | he2
        · injection heq with hd1 hd2
          exact ⟨b, rfl, hcb, hc, hd1, hd2⟩
        · cases hd : delRes b with
          | none => rw [hd] at he2; cases he2
          | some err =>
            rw [hd] at he2
            exact Event.noConfusion (List.mem_singleton.mp he2)

theorem stdoutLines_append (a b : List Event) :
    stdoutLines (a ++ b) = stdoutLines a ++ stdoutLines b :=
  List.filterMap_append a b _

theorem stdoutLines_pruneLineTail (cb : String) (branches : List String)
    (delRes : String → Option String) (line : String) :
    stdoutLines (pruneLineTail cb branches delRes line) = [] := by
  rw [stdoutLines, List.filterMap_eq_nil_iff]
  intro e he
  rcases pruneLineTail_mem e he with ⟨s, rfl⟩ | ⟨d, a, rfl⟩ <;> rfl

theorem stdoutLines_line (cb : String) (branches : List String)
    (delRes : String → Option String) (line : String) :
    stdoutLines (pruneLineEvents cb branches delRes line) = [line] := by
  rw [pruneLineEvents, stdoutLines, List.filterMap_cons]
  have h := stdoutLines_pruneLineTail cb branches delRes line
  rw [stdoutLines] at h
  rw [h]

theorem stdoutLines_flatten (cb : String) (branches : List String)
    (delRes : String → Option String) (lines : List String) :
    stdoutLines ((lines.map (pruneLineEvents cb branches delRes)).flatten)
      = lines := by
  induction lines with
  | nil => rfl
  | cons l ls ih =>
    rw [List.map_cons, List.flatten_cons, stdoutLines_append,
      stdoutLines_line, ih]
    rfl

theorem countDeletes_pruneLine {cb b : String} {branches : List String}
    {delRes : String → Option String} {line : String}
    (h1 : is_pruned_branch line = some b) (h2 : b ≠ cb)
    (h3 : branches.contains b = true) :
    1 ≤ countDeletes b (pruneLineEvents cb branches delRes line) := by
  rw [countDeletes, pruneLineEvents, pruneLineTail_delete h1 h2 h3,
    List.countP_cons, List.countP_cons]
  have hb : isDelete b (Event.run (deleteDescription b) (deleteArgs b)) = true := by
    simp [isDelete]
  have h0 : isDelete b (Event.stdout line) = false := rfl
  rw [hb, h0]
  simp

theorem countP_pruneLine_queries (p : Event → Bool)
    (hq : ∀ s, p (Event.stdout s) = false) (hs : ∀ s, p (Event.stderr s) = false)
    (hr : ∀ d a, p (Event.run d a) = false)
    (cb : String) (branches : List String)
    (delRes : String → Option String) (lines : List String) :
    ((lines.map (pruneLineEvents cb branches delRes)).flatten).countP p = 0 := by
  induction lines with
  | nil => rfl
  | cons l ls ih =>
    rw [List.map_cons, List.flatten_cons, List.countP_append, ih,
      pruneLineEvents, List.countP_cons, hq]
    have h0 : (pruneLineTail cb branches delRes l).countP p = 0 := by
      rw [List.countP_eq_zero]
      intro e he
      rcases pruneLineTail_mem e he with ⟨s, rfl⟩ | ⟨d, a, rfl⟩
      · simp [hs]
      · simp [hr]
    rw [h0]
    simp

/-! ### Claim theorems -/

/-- C1: in every prune run the currently checked-out branch is never deleted:
whenever the parsed pruned branch name is string-equal (case-sensitive) to the
current-branch snapshot, the policy emits the warning on the error stream and
invokes no deletion command for that line; moreover no deletion command with
the current branch's name appears anywhere in the trace. -/
theorem prune_never_deletes_current_branch
    (cmd cb : String) (branches : List String) (delRes : String → Option String)
    (lines : List String) :
    (∀ line, is_pruned_branch line = some cb →
      pruneLineEvents cb branches delRes line =
        [Event.stdout line, Event.stderr (headWarning cb)]) ∧
    (∀ d a, Event.run d a ∈ pruneTrace cmd cb branches delRes lines →
      a ≠ deleteArgs cb) := by
  constructor
  · intro line h
    rw [pruneLineEvents, pruneLineTail_current h]
  · intro d a hmem hargs
    rw [pruneTrace] at hmem
    rcases List.mem_append.mp hmem with hh | hf
    · rw [pruneHeader] at hh
      rcases List.mem_cons.mp hh with h1 | hh
      · exact Event.noConfusion h1
      rcases List.mem_cons.mp hh with h1 | hh
      · exact Event.noConfusion h1
      rcases List.mem_cons.mp hh with h1 | hh
      · exact Event.noConfusion h1
      · cases hh
    · rcases List.mem_flatten.mp hf with ⟨tr, htr, he⟩
      rcases List.mem_map.mp htr with ⟨line, hline, rfl⟩
      rw [pruneLineEvents] at he
      rcases List.mem_cons.mp he with h1 | he2
      · exact Event.noConfusion h1
      · obtain ⟨b, hb1, hb2, hb3, hb4, hb5⟩ := pruneLineTail_run_mem he2
        rw [hargs] at hb5
        have : cb = b := by simpa [deleteArgs] using hb5
        exact hb2 this.symm

/-- Witness for C1 at a concrete pruned line naming the current branch. -/
theorem prune_never_deletes_current_branch_witness :
    pruneLineEvents "main" ["main"] (fun _ => none)
        "- [deleted] (none) -> main" =
      [Event.stdout "- [deleted] (none) -> main",
       Event.stderr (headWarning "main")] :=
  (prune_never_deletes_current_branch "pull" "main" ["main"] (fun _ => none)
    []).1 "- [deleted] (none) -> main" (by decide)

/-- C3: for every line whose parsed pruned branch name differs from the
current branch and is contained in the local-branch snapshot, the policy
invokes exactly one force-delete command, with argument list
`branch -D <name>` for that exact name. -/
theorem prune_deletes_known_branch
    (cb : String) (branches : List String) (delRes : String → Option String)
    (line b : String) (h1 : is_pruned_branch line = some b) (h2 : b ≠ cb)
    (h3 : branches.contains b = true) :
    pruneLineEvents cb branches delRes line =
      Event.stdout line :: Event.run (deleteDescription b) (deleteArgs b) ::
        (match delRes b with
         | none => []
         | some err => [Event.stderr (deleteFailure b err)]) ∧
    countDeletes b (pruneLineEvents cb branches delRes line) = 1 := by
  constructor
  · rw [pruneLineEvents, pruneLineTail_delete h1 h2 h3]
  · rw [countDeletes, pruneLineEvents, pruneLineTail_delete h1 h2 h3,
      List.countP_cons, List.countP_cons]
    have hb : isDelete b (Event.run (deleteDescription b) (deleteArgs b))
        = true := by simp [isDelete]
    have h0 : isDelete b (Event.stdout line) = false := rfl
    rw [hb, h0]
    have hrest : (List.countP (isDelete b)
        (match delRes b with
         | none => ([] : List Event)
         | some err => [Event.stderr (deleteFailure b err)])) = 0 := by
      cases delRes b with
      | none => rfl
      | some err => rfl
    rw [hrest]
    simp

/-- Witness for C3 on the spec's example line with a known local branch. -/
theorem prune_deletes_known_branch_witness :
    countDeletes "feature/foo"
      (pruneLineEvents "main" ["feature/foo"] (fun _ => none)
        "  - [deleted]         (none)     -> feature/foo") = 1 :=
  (prune_deletes_known_branch "main" ["feature/foo"] (fun _ => none)
    "  - [deleted]         (none)     -> feature/foo" "feature/foo"
    (by decide) (by decide) (by decide)).2

/-- C4: when a per-branch deletion fails, the failure is reported on the
error stream, every other line of the run is still processed in place, and
the prune operation as a whole still returns success. -/
theorem prune_recovers_from_delete_failure
    (cmd cb : String) (branches : List String) (delRes : String → Option String)
    (lines pre post : List String) (line b err : String)
    (h1 : is_pruned_branch line = some b) (h2 : b ≠ cb)
    (h3 : branches.contains b = true) (h4 : delRes b = some err)
    (h5 : lines = pre ++ line :: post) :
    prune cmd (.ok cb) (.ok branches) (.ok lines) delRes =
      .ok (pruneTrace cmd cb branches delRes lines) ∧
    Event.stderr (deleteFailure b err) ∈
      pruneLineEvents cb branches delRes line ∧
    pruneTrace cmd cb branches delRes lines =
      pruneHeader cmd ++
        ((pre.map (pruneLineEvents cb branches delRes)).flatten ++
          (pruneLineEvents cb branches delRes line ++
            (post.map (pruneLineEvents cb branches delRes)).flatten)) := by
  refine ⟨rfl, ?_, ?_⟩
  · rw [pruneLineEvents, pruneLineTail_delete h1 h2 h3, h4]
    simp
  · rw [pruneTrace, h5]
    simp

/-- Witness for C4: a one-line run whose deletion fails still reports the
failure on the error stream. -/
theorem prune_recovers_from_delete_failure_witness :
    Event.stderr (deleteFailure "feature/foo" "boom") ∈
      pruneLineEvents "main" ["feature/foo"] (fun _ => some "boom")
        "- [deleted] (none) -> feature/foo" :=
  (prune_recovers_from_delete_failure "pull" "main" ["feature/foo"]
    (fun _ => some "boom") ["- [deleted] (none) -> feature/foo"] [] []
    "- [deleted] (none) -> feature/foo" "feature/foo" "boom"
    (by decide) (by decide) (by decide) rfl rfl).2.1

/-- C5: for every line whose parsed pruned branch name is neither the current
branch nor a member of the local-branch snapshot, the policy produces no
deletion and no warning — the line's only side effect is its echo. -/
theorem prune_ignores_unknown_branch
    (cb : String) (branches : List String) (delRes : String → Option String)
    (line b : String) (h1 : is_pruned_branch line = some b) (h2 : b ≠ cb)
    (h3 : branches.contains b = false) :
    pruneLineEvents cb branches delRes line = [Event.stdout line] := by
  rw [pruneLineEvents, pruneLineTail_skip h1 h2 h3]

/-- Witness for C5 on a pruned branch that is not locally known. -/
theorem prune_ignores_unknown_branch_witness :
    pruneLineEvents "main" [] (fun _ => none)
        "- [deleted] (none) -> feature/foo" =
      [Event.stdout "- [deleted] (none) -> feature/foo"] :=
  prune_ignores_unknown_branch "main" [] (fun _ => none)
    "- [deleted] (none) -> feature/foo" "feature/foo"
    (by decide) (by decide) (by decide)

/-- C6: every output line of the fetch/pull is echoed to standard output,
lines are processed strictly in the order emitted (the stdout projection of
the whole trace is exactly the line list), the trace is the concatenation of
the per-line effect blocks in order, and each block starts with its line's
echo and contains no other stdout effect. -/
theorem prune_echoes_lines_in_order
    (cmd cb : String) (branches : List String) (delRes : String → Option String)
    (lines : List String) :
    stdoutLines (pruneTrace cmd cb branches delRes lines) = lines ∧
    pruneTrace cmd cb branches delRes lines =
      pruneHeader cmd ++ (lines.map (pruneLineEvents cb branches delRes)).flatten ∧
    ∀ line, (pruneLineEvents cb branches delRes line).head? =
        some (Event.stdout line) ∧
      stdoutLines (pruneLineEvents cb branches delRes line) = [line] := by
  refine ⟨?_, rfl, ?_⟩
  · rw [pruneTrace, stdoutLines_append, stdoutLines_flatten]
    rfl
  · intro line
    exact ⟨rfl, stdoutLines_line cb branches delRes line⟩

/-- Witness for C6 on a concrete two-line run. -/
theorem prune_echoes_lines_in_order_witness :
    stdoutLines (pruneTrace "pull" "main" [] (fun _ => none)
      ["line one", "- [deleted] (none) -> feature/foo"]) =
      ["line one", "- [deleted] (none) -> feature/foo"] :=
  (prune_echoes_lines_in_order "pull" "main" [] (fun _ => none)
    ["line one", "- [deleted] (none) -> feature/foo"]).1

/-- C7: the current branch and the local-branch set are each queried exactly
once, before any line is processed, and are never refreshed within a run; in
particular a pruned branch name that occurs on two lines has deletion
attempted for both occurrences (no deduplication). -/
theorem prune_snapshots_once_no_dedup
    (cmd cb : String) (branches : List String) (delRes : String → Option String)
    (lines : List String) :
    countQueryCurrent (pruneTrace cmd cb branches delRes lines) = 1 ∧
    countQueryBranches (pruneTrace cmd cb branches delRes lines) = 1 ∧
    (pruneTrace cmd cb branches delRes lines).take 2 =
      [Event.queryCurrentBranch, Event.queryBranches] ∧
    ∀ pre mid post l b, lines = pre ++ (l :: (mid ++ l :: post)) →
      is_pruned_branch l = some b → b ≠ cb → branches.contains b = true →
      2 ≤ countDeletes b (pruneTrace cmd cb branches delRes lines) := by
  refine ⟨?_, ?_, rfl, ?_⟩
  · rw [countQueryCurrent, pruneTrace, List.countP_append]
    have h1 : (pruneHeader cmd).countP
        (fun e => decide (e = Event.queryCurrentBranch)) = 1 := rfl
    have h2 := countP_pruneLine_queries
      (fun e => decide (e = Event.queryCurrentBranch))
      (fun s => by simp) (fun s => by simp) (fun d a => by simp)
      cb branches delRes lines
    rw [h1, h2]
  · rw [countQueryBranches, pruneTrace, List.countP_append]
    have h1 : (pruneHeader cmd).countP
        (fun e => decide (e = Event.queryBranches)) = 1 := rfl
    have h2 := countP_pruneLine_queries
      (fun e => decide (e = Event.queryBranches))
      (fun s => by simp) (fun s => by simp) (fun d a => by simp)
      cb branches delRes lines
    rw [h1, h2]
  · intro pre mid post l b h5 h1 h2 h3
    rw [countDeletes, pruneTrace, h5, List.countP_append]
    have hh : (pruneHeader cmd).countP (isDelete b) = 0 := rfl
    rw [hh, List.map_append, List.flatten_append, List.countP_append,
      List.map_cons, List.flatten_cons, List.countP_append,
      List.map_append, List.flatten_append, List.countP_append,
      List.map_cons, List.flatten_cons, List.countP_append]
    have hl := @countDeletes_pruneLine cb b branches delRes l h1 h2 h3
    rw [countDeletes] at hl
    omega

/-- Witness for C7: the same pruned branch on two lines is deleted twice. -/
theorem prune_snapshots_once_no_dedup_witness :
    2 ≤ countDeletes "feature/foo"
      (pruneTrace "pull" "main" ["feature/foo"] (fun _ => none)
        ["- [deleted] (none) -> feature/foo",
         "- [deleted] (none) -> feature/foo"]) :=
  (prune_snapshots_once_no_dedup "pull" "main" ["feature/foo"] (fun _ => none)
    ["- [deleted] (none) -> feature/foo",
     "- [deleted] (none) -> feature/foo"]).2.2.2 [] [] []
    "- [deleted] (none) -> feature/foo" "feature/foo" rfl
    (by decide) (by decide) (by decide)

/-- C8: when the current-branch collaborator returns the sentinel "HEAD",
the push operation returns the detached-HEAD error and invokes no push
command. -/
theorem push_detached_head_errors (force : Bool) :
    push_branch force (.ok "HEAD") = .error detachedError ∧
    ∀ tr, push_branch force (.ok "HEAD") ≠ .ok tr := by
  have h1 : push_branch force (.ok "HEAD") = .error detachedError := by
    simp only [push_branch]
    rw [if_pos (by decide)]
  refine ⟨h1, fun tr hc => ?_⟩
  rw [h1] at hc
  exact Except.noConfusion hc

/-- Witness for C8 without the force flag. -/
theorem push_detached_head_errors_witness :
    push_branch false (.ok "HEAD") = .error detachedError :=
  (push_detached_head_errors false).1

/-- C9: the detachment test of push is ASCII-case-insensitive: every current
branch name whose ASCII lowercasing is "head" yields the detached-HEAD error
and no push invocation. -/
theorem push_detachment_test_ascii_case_insensitive (force : Bool) (cb : String)
    (h : toAsciiLowercase cb = "head") :
    push_branch force (.ok cb) = .error detachedError ∧
    ∀ tr, push_branch force (.ok cb) ≠ .ok tr := by
  have h1 : push_branch force (.ok cb) = .error detachedError := by
    simp only [push_branch]
    rw [if_pos h]
  refine ⟨h1, fun tr hc => ?_⟩
  rw [h1] at hc
  exact Except.noConfusion hc

/-- Witness for C9 on a branch literally named "HeAd". -/
theorem push_detachment_test_ascii_case_insensitive_witness :
    push_branch true (.ok "HeAd") = .error detachedError ∧
    ∀ tr, push_branch true (.ok "HeAd") ≠ .ok tr :=
  push_detachment_test_ascii_case_insensitive true "HeAd" (by decide)

/-- C10: whenever save obtains the local time, the commit message handed to
the commit command is exactly "lk save [<now>] | " followed by the message
parts joined by single spaces, and the " | " separator is still present
(trailing) when the message list is empty. -/
theorem save_commit_message_format (now : String) (all : Bool)
    (message : List String) :
    save (some now) all message =
      .ok [("add files", ["add", if all then "--all" else "--update"]),
           ("commit", ["commit", "--message",
              "lk save [" ++ now ++ "] | " ++ String.intercalate " " message]),
           ("push", ["push"])] ∧
    saveCommitMessage now [] = "lk save [" ++ now ++ "] | " := by
  constructor
  · rfl
  · rw [saveCommitMessage]
    rw [show String.intercalate " " ([] : List String) = "" from rfl]
    rw [String.append_empty]

/-- Witness for C10: an empty message list leaves the trailing separator. -/
theorem save_commit_message_format_witness :
    save (some "2024-01-01") false [] =
      .ok [("add files", ["add", if false then "--all" else "--update"]),
           ("commit", ["commit", "--message",
              "lk save [" ++ "2024-01-01" ++ "] | " ++
                String.intercalate " " ([] : List String)]),
           ("push", ["push"])] :=
  (save_commit_message_format "2024-01-01" false []).1

/-- C2: the parser is a pure total function from one line to an optional
branch name; after trimming, it yields a name iff the trimmed line contains
`- [deleted]`, then `(none)`, then `->`, in that order, and the name is the
trailing text after the last `->` of the trimmed line, trimmed of whitespace
and non-empty; for every other line it yields nothing. -/
theorem is_pruned_branch_characterized (line n : String) :
    is_pruned_branch line = some n ↔
      ((∃ a b c d, trimmedLine line =
          a ++ (markerDeleted ++ (b ++ (markerNone ++ (c ++ (markerArrow ++ d)))))) ∧
       ∃ tail, afterLast markerArrow (trimmedLine line) = some tail ∧
         trimChars tail ≠ [] ∧ n = String.mk (trimChars tail)) := by
  constructor
  · intro h
    rw [is_pruned_branch] at h
    cases hd1 : dropAfterFirst markerDeleted (trimmedLine line) with
    | none => simp [hd1] at h
    | some r1 =>
      simp only [hd1] at h
      cases hd2 : dropAfterFirst markerNone r1 with
      | none => simp [hd2] at h
      | some r2 =>
        simp only [hd2] at h
        cases hd3 : afterLast markerArrow r2 with
        | none => simp [hd3] at h
        | some tail =>
          simp only [hd3] at h
          by_cases ht : trimChars tail = []
          · rw [if_pos ht] at h; cases h
          · rw [if_neg ht] at h
            injection h with hn
            obtain ⟨a1, e1⟩ := dropAfterFirst_some_decomp hd1
            obtain ⟨a2, e2⟩ := dropAfterFirst_some_decomp hd2
            obtain ⟨a3, e3⟩ := afterLast_some_decomp hd3
            have hsuf : r2 <:+ trimmedLine line := by
              rw [e1, e2]
              refine ⟨a1 ++ (markerDeleted ++ (a2 ++ markerNone)), ?_⟩
              simp [List.append_assoc]
            refine ⟨⟨a1, a2, a3, tail, ?_⟩,
              tail, afterLast_suffix_some hsuf hd3, ht, hn.symm⟩
            rw [e1, e2, e3]
  · rintro ⟨⟨a, b, c, d, hdec⟩, tail, hlast, htail, hn⟩
    have hpat : markerArrow ≠ [] := by decide
    obtain ⟨r1, hr1, hsuf1⟩ :=
      @dropAfterFirst_append markerDeleted a
        (b ++ (markerNone ++ (c ++ (markerArrow ++ d))))
    rw [← hdec] at hr1
    obtain ⟨p, hp⟩ := hsuf1
    have hr1eq : r1 = (p ++ b) ++ (markerNone ++ (c ++ (markerArrow ++ d))) := by
      rw [← hp]
      simp [List.append_assoc]
    obtain ⟨r2, hr2, hsuf2⟩ :=
      @dropAfterFirst_append markerNone (p ++ b) (c ++ (markerArrow ++ d))
    rw [← hr1eq] at hr2
    obtain ⟨q, hq⟩ := hsuf2
    have hocc : ∃ x y, r2 = x ++ (markerArrow ++ y) :=
      ⟨q ++ c, d, by rw [← hq]; simp [List.append_assoc]⟩
    obtain ⟨tail2, hlast2⟩ := afterLast_isSome_of_occurrence hpat hocc
    have hsufr2 : r2 <:+ trimmedLine line := by
      obtain ⟨u1, hu1⟩ := dropAfterFirst_some_decomp hr1
      obtain ⟨u2, hu2⟩ := dropAfterFirst_some_decomp hr2
      have s1 : r2 <:+ r1 := by
        rw [hu2]
        exact ⟨u2 ++ markerNone, by simp [List.append_assoc]⟩
      have s2 : r1 <:+ trimmedLine line := by
        rw [hu1]
        exact ⟨u1 ++ markerDeleted, by simp [List.append_assoc]⟩
      exact s1.trans s2
    have hlift := afterLast_suffix_some hsufr2 hlast2
    rw [hlast] at hlift
    injection hlift with htt
    rw [← htt] at hlast2
    rw [is_pruned_branch]
    simp only [hr1, hr2, hlast2]
    rw [if_neg htail, hn]

/-- Witness for C2: the spec's example pruning notice satisfies the
marker-decomposition side of the characterization. -/
theorem is_pruned_branch_characterized_witness :
    (∃ a b c d,
        trimmedLine "  - [deleted]         (none)     -> feature/foo" =
          a ++ (markerDeleted ++ (b ++ (markerNone ++ (c ++ (markerArrow ++ d)))))) ∧
    ∃ tail, afterLast markerArrow
        (trimmedLine "  - [deleted]         (none)     -> feature/foo") = some tail ∧
      trimChars tail ≠ [] ∧ "feature/foo" = String.mk (trimChars tail) :=
  (is_pruned_branch_characterized
    "  - [deleted]         (none)     -> feature/foo" "feature/foo").mp (by decide)

end Loki
